import Mathlib

/-!
Verification development for the `tradeking` library (files
`tradeking/utils.py`, `tradeking/option.py`, `tradeking/api.py`).

Python strings are modelled as lists of characters (`PyStr`), Python ints
as `ℤ`/`ℕ`, and Python decimal values as exact rationals (`ℚ`).  Fallible
Python code (code that can raise) is modelled with `Option`.  External
library calls (`pandas.to_datetime`) are modelled on the input shapes this
code base actually feeds them: all-digit strings of length 4, 6 or 8.
-/

abbrev PyStr := List Char

/-- Character for a decimal digit `d` (`0 ≤ d ≤ 9`), ASCII `'0' + d`. -/
def digitChar (d : ℕ) : Char := Char.ofNat (48 + d)

/-- Numeric value of a decimal digit character. -/
def charVal (c : Char) : ℕ := c.toNat - 48

/-- Decimal digit characters of `n` (most significant first), by fuel
recursion so the kernel can evaluate it. -/
def natToCharsAux : ℕ → ℕ → List Char
  | 0, _ => []
  | fuel + 1, n =>
      if n = 0 then [] else natToCharsAux fuel (n / 10) ++ [digitChar (n % 10)]

/-- Decimal string of a natural number, as Python `str` renders it. -/
def charsOfNat (n : ℕ) : List Char :=
  if n = 0 then ['0'] else natToCharsAux n n

/-- Decimal string of an integer, as Python `str` renders it. -/
def intToChars (z : ℤ) : List Char :=
  if z < 0 then '-' :: charsOfNat z.natAbs else charsOfNat z.toNat

/-- Fold a digit string into its numeric value. -/
def digitsVal (l : List Char) : ℕ :=
  l.foldl (fun a c => 10 * a + charVal c) 0

/-- Model of Python `float(s)` restricted to non-empty all-digit strings
(the only shape this code base feeds it); other strings raise.  On digit
strings the float value is the exact integer `digitsVal l`. -/
def pyFloatDigits (l : List Char) : Option ℕ :=
  if l ≠ [] ∧ l.all Char.isDigit then some (digitsVal l) else none

/-- Model of Python `s.rstrip('L')`: drop trailing `'L'` characters. -/
def pyRstripL (l : List Char) : List Char :=
  (l.reverse.dropWhile (fun c => c = 'L')).reverse

/-- Python `s[-k:]` for a non-negative `k`: the last `k` characters. -/
def lastK (l : List Char) (k : ℕ) : List Char := l.drop (l.length - k)

/-- Python `s[-i:-j]` (`i > j`): characters from `i`-from-end up to
`j`-from-end, with Python's clamping of negative indices to `0`. -/
def sliceFromEnd (l : List Char) (i j : ℕ) : List Char :=
  ((l.drop (l.length - i)).take ((l.length - j) - (l.length - i)))

/-- Python `s[:-k]`: everything but the last `k` characters. -/
def dropLastK (l : List Char) (k : ℕ) : List Char := l.take (l.length - k)

/-! ### Price (`tradeking/utils.py`, class `Price`)

`Price.BASE = 1000.0`; `encode` multiplies by the base and truncates to an
integer (Python `int()` truncates toward zero), `decode` divides by the
base.  Decimal arithmetic is modelled exactly over `ℚ`. -/

/-- Scale factor `Price.BASE`. -/
def Price.BASE : ℚ := 1000

/-- Python `int(q)`: truncation toward zero. -/
def pyInt (q : ℚ) : ℤ := if 0 ≤ q then ⌊q⌋ else -⌊-q⌋

/-- `Price.encode`: multiply by the scale and truncate to integer. -/
def Price.encode (value : ℚ) : ℤ := pyInt (value * Price.BASE)

/-- `Price.decode`: divide by the scale. -/
def Price.decode (value : ℚ) : ℚ := value / Price.BASE

/-! ### Dates and the pandas datetime model -/

/-- A calendar date at day granularity. -/
structure Date where
  year : ℕ
  month : ℕ
  day : ℕ

deriving DecidableEq

/-- Gregorian leap-year test. -/
def isLeap (y : ℕ) : Prop := (y % 4 = 0 ∧ y % 100 ≠ 0) ∨ y % 400 = 0

instance (y : ℕ) : Decidable (isLeap y) := by unfold isLeap; infer_instance

/-- Length of month `m` in year `y`. -/
def daysInMonth (y m : ℕ) : ℕ :=
  if m = 2 then (if isLeap y then 29 else 28)
  else if m = 4 ∨ m = 6 ∨ m = 9 ∨ m = 11 then 30
  else 31

/-- Validity of a calendar date. -/
def validDate (y m d : ℕ) : Prop :=
  1 ≤ m ∧ m ≤ 12 ∧ 1 ≤ d ∧ d ≤ daysInMonth y m

instance (y m d : ℕ) : Decidable (validDate y m d) := by
  unfold validDate; infer_instance

/-- Two-digit zero-padded decimal rendering (`%02d` for values below 100). -/
def pad2 (a : ℕ) : List Char := [digitChar (a / 10 % 10), digitChar (a % 10)]

/-- Four-digit zero-padded decimal rendering (`%04d` for values below 10000). -/
def pad4 (a : ℕ) : List Char :=
  [digitChar (a / 1000 % 10), digitChar (a / 100 % 10),
   digitChar (a / 10 % 10), digitChar (a % 10)]

/-- `strftime('%y%m%d')` on a date. -/
def strftime_yymmdd (d : Date) : List Char :=
  pad2 (d.year % 100) ++ pad2 d.month ++ pad2 d.day

/-- `strftime('%Y%m%d')` on a date. -/
def strftime_YYYYMMDD (d : Date) : List Char :=
  pad4 d.year ++ pad2 d.month ++ pad2 d.day

/-- Two-digit-year pivot used when parsing `%y`: `00`–`68` map into the
2000s, `69`–`99` into the 1900s. -/
def pivotYY (yy : ℕ) : ℕ := if yy ≤ 68 then 2000 + yy else 1900 + yy

/-- Model of `pandas.to_datetime` restricted to the digit-string shapes this
code base produces: 6 digits are read as `yymmdd`, 4 digits as a bare year
(within pandas' representable year range), 8 digits as `YYYYMMDD`; anything
else raises.  Invalid calendar components raise. -/
def pd_to_datetime : List Char → Option Date
  | [c1, c2, c3, c4] =>
      if ([c1, c2, c3, c4].all Char.isDigit) then
        let y := digitsVal [c1, c2, c3, c4]
        if 1677 ≤ y ∧ y ≤ 2262 then some ⟨y, 1, 1⟩ else none
      else none
  | [c1, c2, c3, c4, c5, c6] =>
      if ([c1, c2, c3, c4, c5, c6].all Char.isDigit) then
        let yy := digitsVal [c1, c2]
        let mm := digitsVal [c3, c4]
        let dd := digitsVal [c5, c6]
        let y := pivotYY yy
        if validDate y mm dd then some ⟨y, mm, dd⟩ else none
      else none
  | [c1, c2, c3, c4, c5, c6, c7, c8] =>
      if ([c1, c2, c3, c4, c5, c6, c7, c8].all Char.isDigit) then
        let y := digitsVal [c1, c2, c3, c4]
        let mm := digitsVal [c5, c6]
        let dd := digitsVal [c7, c8]
        if validDate y mm dd then some ⟨y, mm, dd⟩ else none
      else none
  | _ => none

/-! ### Option symbol codec (`tradeking/utils.py`) -/

/-- Zero-pad a strike string on the left to 8 characters
(`('0' * (8 - len(strike))) + strike`; Python yields the empty string for a
negative repeat count, as does `List.replicate` under `ℕ` subtraction). -/
def padStrike (s : List Char) : List Char :=
  List.replicate (8 - s.length) '0' ++ s

/-- Strike rendering in `option_symbol`:
`('0' * (8 - len(s))) + s` for `s = str(Price.encode(strike)).rstrip('L')`. -/
def strikeChars (strike : ℚ) : List Char :=
  padStrike (pyRstripL (intToChars (Price.encode strike)))

/-- Formatting core of `option_symbol`: `underlying` ++ `%y%m%d` expiration
++ upper-cased type letter ++ zero-padded encoded strike.  The expiration is
taken as an already-parsed date (`pd.to_datetime` is the identity on
datetimes). -/
def option_symbol_fmt (underlying : PyStr) (expiration : Date)
    (call_put : PyStr) (strike : ℚ) : PyStr :=
  underlying ++ strftime_yymmdd expiration ++ call_put.map Char.toUpper ++
    strikeChars strike

/-- `option_symbol`: raises `ValueError` (modelled as `none`) unless the
upper-cased type letter is `C` or `P`. -/
def option_symbol (underlying : PyStr) (expiration : Date)
    (call_put : PyStr) (strike : ℚ) : Option PyStr :=
  if call_put.map Char.toUpper = ['C'] ∨ call_put.map Char.toUpper = ['P'] then
    some (option_symbol_fmt underlying expiration call_put strike)
  else none

/-- `itertools.product` on four lists: tuples in lexicographic order with
the last coordinate varying fastest. -/
def itertoolsProd4 {α β γ δ : Type} (as : List α) (bs : List β)
    (cs : List γ) (ds : List δ) : List (α × β × γ × δ) :=
  as.flatMap fun a => bs.flatMap fun b => cs.flatMap fun c =>
    ds.map fun d => (a, b, c, d)

/-- `option_symbols`: raises (modelled as `none`) when both `calls` and
`puts` are false; otherwise formats every tuple of
`itertools.product([underlying], expirations, call_put, strikes)` where
`call_put` is the string `'C'`/`'P'`/`'CP'` built from the flags. -/
def option_symbols (underlying : PyStr) (expirations : List Date)
    (strikes : List ℚ) (calls puts : Bool) : Option (List PyStr) :=
  if calls = false ∧ puts = false then none
  else
    let call_put : List Char :=
      (if calls then ['C'] else []) ++ (if puts then ['P'] else [])
    some ((itertoolsProd4 [underlying] expirations call_put strikes).map
      (fun t => option_symbol_fmt t.1 t.2.1 [t.2.2.1] t.2.2.2))

/-- `parse_option_symbol`: strike from the last 8 characters via
`Price.decode(float(..))`, type letter from `s[-9:-8]` upper-cased,
expiration from `s[-15:-9]` via `pd.to_datetime`, underlying from
`s[:-15]` upper-cased.  Parse failures of the strike or date segment raise
(modelled as `none`); no length validation is performed. -/
def parse_option_symbol_raw (symbol : List Char) :
    Option (PyStr × Date × PyStr × ℕ) :=
  match pyFloatDigits (lastK symbol 8) with
  | none => none
  | some strikeraw =>
      let call_put := (sliceFromEnd symbol 9 8).map Char.toUpper
      match pd_to_datetime (sliceFromEnd symbol 15 9) with
      | none => none
      | some expiration =>
          some ((dropLastK symbol 15).map Char.toUpper, expiration,
                call_put, strikeraw)

/-- `parse_option_symbol` with the strike passed through `Price.decode`
(the code's `Price.decode(symbol[-8:])`). -/
def parse_option_symbol (symbol : List Char) :
    Option (PyStr × Date × PyStr × ℚ) :=
  (parse_option_symbol_raw symbol).map
    (fun t => (t.1, t.2.1, t.2.2.1, Price.decode ((t.2.2.2 : ℕ) : ℚ)))

/-! ### TTL cache (`tradeking/utils.py`, `cached_property.__get__`)

A cache entry is `(value, last_update)`.  A read at time `now` returns the
cached value unless the entry is absent or `ttl > 0 and now - last_update >
ttl`, in which case it recomputes via `fget`, stores `(value, now)` and
returns the fresh value.  The function returns the value read together
with the new cache entry. -/
def cachedRead {α : Type} (ttl now : ℤ) (entry : Option (α × ℤ))
    (fget : Unit → α) : α × Option (α × ℤ) :=
  match entry with
  | some (value, last_update) =>
      if 0 < ttl ∧ ttl < now - last_update then
        let v := fget ()
        (v, some (v, now))
      else (value, some (value, last_update))
  | none =>
      let v := fget ()
      (v, some (v, now))

/-! ### Leg (`tradeking/option.py`) -/

/-- A `Leg` with its identity fields, domain, injected cost/premium
functions, and one cache slot per `cached_property` of the class. -/
structure Leg where
  underlying : PyStr
  expiration : Date
  call_put : Char
  long_short : Char
  strike : ℤ
  start : ℤ
  stop : ℤ
  tick_size : ℤ
  symbol : PyStr
  cost_func : ℕ → ℤ
  premium_func : PyStr → ℤ
  cachePayoffs : Option (List (ℤ × ℤ) × ℤ) := none
  cacheCost : Option (ℤ × ℤ) := none
  cachePremium : Option (ℤ × ℤ) := none

/-- Python `range(start, stop, step)` for a positive step. -/
def pyRange (start stop step : ℤ) : List ℤ :=
  let cnt : ℕ :=
    if start < stop ∧ 0 < step then
      ((stop - start).toNat + step.toNat - 1) / step.toNat
    else 0
  (List.range cnt).map (fun k => start + step * (k : ℤ))

/-- The payoff closure selected in `Leg.__init__`: put intrinsic value for
`P`, call intrinsic value otherwise. -/
def Leg.payoff_func (l : Leg) (x : ℤ) : ℤ :=
  if l.call_put = 'P' then max (l.strike - x) 0 else max (x - l.strike) 0

/-- `Leg.payoff`: intrinsic value at one price, negated for a short leg. -/
def Leg.payoff (l : Leg) (price : ℤ) : ℤ :=
  let p := l.payoff_func price
  if l.long_short = 'S' then p * -1 else p

/-- Body of the `Leg.payoffs` cached property: the payoff curve sampled at
every tick of `range(start, stop, tick_size)`, negated point-wise for a
short leg. -/
def Leg.payoffsCompute (l : Leg) : List (ℤ × ℤ) :=
  let prices := pyRange l.start l.stop l.tick_size
  let payoffs := prices.map (fun p => (p, l.payoff_func p))
  if l.long_short = 'S' then payoffs.map (fun kv => (kv.1, kv.2 * -1))
  else payoffs

/-- Reading the `payoffs` cached property (TTL 300) at time `now`,
returning the curve and the updated leg. -/
def Leg.payoffsRead (l : Leg) (now : ℤ) : List (ℤ × ℤ) × Leg :=
  let r := cachedRead 300 now l.cachePayoffs (fun _ => l.payoffsCompute)
  (r.1, { l with cachePayoffs := r.2 })

/-- `Leg.reset_start_stop`: drop the cached payoff curve (if any) and set
the new domain bounds. -/
def Leg.reset_start_stop (l : Leg) (start stop : ℤ) : Leg :=
  { l with cachePayoffs := none, start := start, stop := stop }

/-- Body of the `Leg.cost` cached property. -/
def Leg.costCompute (l : Leg) : ℤ := l.cost_func 1

/-- Body of the `Leg.premium` cached property: premium of the symbol,
negated for a short leg. -/
def Leg.premiumCompute (l : Leg) : ℤ :=
  let p := l.premium_func l.symbol
  if l.long_short = 'S' then p * -1 else p

/-- `tradeking_cost`: `Price(4.95) + Price(0.65) * num_legs`. -/
def tradeking_cost (num_legs : ℕ) : ℤ :=
  Price.encode (4.95 : ℚ) + Price.encode (0.65 : ℚ) * num_legs

/-! ### MultiLeg (`tradeking/option.py`) -/

/-- A `MultiLeg`: the ordered legs, the injected multi-leg cost function,
and one cache slot per `cached_property` of the class. -/
structure MultiLeg where
  legs : List Leg
  cost_func : ℕ → ℤ
  cachePayoffs : Option (List (ℤ × ℤ) × ℤ) := none
  cacheCost : Option (ℤ × ℤ) := none
  cachePremium : Option (ℤ × ℤ) := none

/-- `MultiLeg.add_leg` with an already-constructed `Leg`: appends to the
ordered collection (and touches nothing else). -/
def MultiLeg.add_leg (m : MultiLeg) (leg : Leg) : MultiLeg :=
  { m with legs := m.legs ++ [leg] }

/-- `MultiLeg.payoff`: `sum([leg.payoff(price) for leg in self._legs])`. -/
def MultiLeg.payoff (m : MultiLeg) (price : ℤ) : ℤ :=
  (m.legs.map (fun leg => leg.payoff price)).sum

/-- Index set of a pandas Series modelled as an association list. -/
def seriesKeys (s : List (ℤ × ℤ)) : List ℤ := s.map Prod.fst

/-- Value of a series at key `k`, `0` when the key is absent. -/
def lookup0 (s : List (ℤ × ℤ)) (k : ℤ) : ℤ := (s.lookup k).getD 0

/-- `pandas.Series.add(other, fill_value=0)`: the sorted union of the two
index sets, summing values and treating a missing key as `0`. -/
def seriesAdd (a b : List (ℤ × ℤ)) : List (ℤ × ℤ) :=
  (((seriesKeys a ++ seriesKeys b).dedup).insertionSort (fun x y => x ≤ y)).map
    (fun k => (k, lookup0 a k + lookup0 b k))

/-- Body of the `MultiLeg.payoffs` cached property: take the min start and
max stop over the legs (raising on an empty leg list, modelled as `none`),
reset every leg's domain to that union, then fold the legs' (freshly read)
payoff curves with `Series.add(…, fill_value=0)` starting from the empty
series.  Returns the curve and the mutated legs. -/
def MultiLeg.payoffsCompute (m : MultiLeg) (now : ℤ) :
    Option (List (ℤ × ℤ) × List Leg) :=
  match (m.legs.map Leg.start).minimum?, (m.legs.map Leg.stop).maximum? with
  | some start, some stop =>
      some ((m.legs.map (fun l => l.reset_start_stop start stop)).foldl
        (fun acc l =>
          (seriesAdd acc.1 (l.payoffsRead now).1,
            acc.2 ++ [(l.payoffsRead now).2]))
        (([] : List (ℤ × ℤ)), ([] : List Leg)))
  | _, _ => none

/-- Reading the `MultiLeg.payoffs` cached property (TTL 300) at `now`. -/
def MultiLeg.payoffsRead (m : MultiLeg) (now : ℤ) :
    Option (List (ℤ × ℤ) × MultiLeg) :=
  match m.cachePayoffs with
  | some (value, last_update) =>
      if 0 < (300 : ℤ) ∧ (300 : ℤ) < now - last_update then
        match m.payoffsCompute now with
        | some r =>
            some (r.1, { m with legs := r.2, cachePayoffs := some (r.1, now) })
        | none => none
      else some (value, m)
  | none =>
      match m.payoffsCompute now with
      | some r =>
          some (r.1, { m with legs := r.2, cachePayoffs := some (r.1, now) })
      | none => none

/-- Reading the `MultiLeg.cost` cached property (TTL 300) at `now`:
`self._cost_func(len(self._legs))`. -/
def MultiLeg.costRead (m : MultiLeg) (now : ℤ) : ℤ × MultiLeg :=
  let r := cachedRead 300 now m.cacheCost (fun _ => m.cost_func m.legs.length)
  (r.1, { m with cacheCost := r.2 })

/-- A concrete long call Leg on `F` (strike 5.000) used as input for the
cache-staleness scenario. -/
def legF : Leg :=
  { underlying := "F".toList, expiration := ⟨2016, 6, 17⟩, call_put := 'C',
    long_short := 'L', strike := 5000, start := 3000, stop := 7001,
    tick_size := 10, symbol := "F160617C00005000".toList,
    cost_func := tradeking_cost, premium_func := fun _ => 0 }

/-- A concrete long call Leg (strike 5, domain 3–8, tick 1). -/
def legG : Leg :=
  { underlying := "G".toList, expiration := ⟨2016, 6, 17⟩, call_put := 'C',
    long_short := 'L', strike := 5, start := 3, stop := 8, tick_size := 1,
    symbol := "G160617C00000005".toList, cost_func := tradeking_cost,
    premium_func := fun _ => 0 }

/-- A concrete short put Leg (strike 5, domain 2–7, tick 1). -/
def legH : Leg :=
  { underlying := "G".toList, expiration := ⟨2016, 6, 17⟩, call_put := 'P',
    long_short := 'S', strike := 5, start := 2, stop := 7, tick_size := 1,
    symbol := "G160617P00000005".toList, cost_func := tradeking_cost,
    premium_func := fun _ => 0 }

/-! ### OptionQuery (`tradeking/api.py`) -/

/-- `OptionQuery.FIELDS`. -/
def OQ_FIELDS : List PyStr :=
  ["strikeprice".toList, "xdate".toList, "xmonth".toList, "xyear".toList,
   "put_call".toList, "unique".toList]

/-- `OptionQuery.OPS`: the operator alias table. -/
def OQ_OPS : List (PyStr × PyStr) :=
  [("<".toList, "lt".toList), ("lt".toList, "lt".toList),
   (">".toList, "gt".toList), ("gt".toList, "gt".toList),
   (">=".toList, "gte".toList), ("gte".toList, "gte".toList),
   ("<=".toList, "lte".toList), ("lte".toList, "lte".toList),
   ("=".toList, "eq".toList), ("==".toList, "eq".toList),
   ("eq".toList, "eq".toList)]

/-- Helper for `pySplit`: accumulates the current word reversed. -/
def pySplitAux : List Char → List Char → List PyStr
  | [], cur => if cur = [] then [] else [cur.reverse]
  | c :: rest, cur =>
      if c.isWhitespace then
        (if cur = [] then pySplitAux rest []
         else cur.reverse :: pySplitAux rest [])
      else pySplitAux rest (c :: cur)

/-- Python `str.split()` with no argument: split on runs of whitespace,
discarding empty words. -/
def pySplit (l : List Char) : List PyStr := pySplitAux l []

/-- The loop body of `OptionQuery.__init__` on one expression:
`none` models a raised `ValueError` (tuple unpacking with a token count
other than three, or an unparsable `xdate` value); `some none` a silently
dropped triple (unknown field or operator); `some (some triple)` a
retained triple whose field is lower-cased, whose operator is canonicalized
through the alias table, and whose `xdate` value is normalized through
`pd.to_datetime(value).strftime('%Y%m%d')`. -/
def OQ_keepPart (part : PyStr) : Option (Option (PyStr × PyStr × PyStr)) :=
  match pySplit part with
  | [field, op, value] =>
      if (field.map Char.toLower) ∈ OQ_FIELDS then
        match OQ_OPS.lookup op with
        | some canon =>
            if field.map Char.toLower = "xdate".toList then
              match pd_to_datetime value with
              | some dt =>
                  some (some (field.map Char.toLower, canon,
                    strftime_YYYYMMDD dt))
              | none => none
            else some (some (field.map Char.toLower, canon, value))
        | none => some none
      else some none
  | _ => none

/-- `OptionQuery.__init__` over a list of expressions: fold `OQ_keepPart`
over the parts, propagating a raise and accumulating retained triples in
input order. -/
def OptionQuery_init : List PyStr → Option (List (PyStr × PyStr × PyStr))
  | [] => some []
  | part :: rest =>
      match OQ_keepPart part with
      | none => none
      | some none => OptionQuery_init rest
      | some (some t) => (OptionQuery_init rest).map (fun l => t :: l)

/-- Join a list of words with a separator. -/
def joinSep (sep : PyStr) : List PyStr → PyStr
  | [] => []
  | [x] => x
  | x :: y :: rest => x ++ sep ++ joinSep sep (y :: rest)

/-- `OptionQuery.__str__`: `' AND '.join('%s-%s:%s' % (field, op, value))`
over the retained triples. -/
def OptionQuery_str (q : List (PyStr × PyStr × PyStr)) : PyStr :=
  joinSep (" AND ".toList)
    (q.map (fun t => t.1 ++ "-".toList ++ t.2.1 ++ ":".toList ++ t.2.2))

/-- The retained well-formed triples as the specification describes them:
keep the triples `OQ_keepPart` retains, in input order, dropping the
rest. -/
def keptTriples : List PyStr → List (PyStr × PyStr × PyStr)
  | [] => []
  | part :: rest =>
      match OQ_keepPart part with
      | some (some t) => t :: keptTriples rest
      | _ => keptTriples rest

/-- An expression is benign for `OptionQuery.__init__` (its processing does
not raise): it splits into exactly three tokens, and if it is a retained
`xdate` filter its value parses as a datetime. -/
def xdateOK (part : PyStr) : Bool := (OQ_keepPart part).isSome


theorem pyInt_intCast (z : ℤ) : pyInt ((z : ℚ)) = z := by
  unfold pyInt
  rcases le_or_lt 0 z with h | h
  · rw [if_pos (by exact_mod_cast h), Int.floor_intCast]
  · rw [if_neg (show ¬ (0 : ℚ) ≤ ((z : ℚ)) from by exact_mod_cast not_le.mpr h)]
    rw [show -((z : ℚ)) = ((-z : ℤ) : ℚ) by push_cast; ring, Int.floor_intCast]
    omega

theorem Price.encode_div_base (z : ℤ) :
    Price.encode ((z : ℚ) / 1000) = z := by
  unfold Price.encode Price.BASE
  rw [div_mul_cancel₀ _ (by norm_num), pyInt_intCast]

theorem Price.encode_intCast (z : ℤ) : Price.encode ((z : ℚ)) = z * 1000 := by
  have h : ((z : ℚ)) = ((z * 1000 : ℤ) : ℚ) / 1000 := by push_cast; ring
  rw [h, Price.encode_div_base]

/-! ### Digit-string lemmas -/

theorem charVal_digitChar (d : ℕ) (h : d ≤ 9) : charVal (digitChar d) = d := by
  interval_cases d <;> decide

theorem isDigit_digitChar (d : ℕ) (h : d ≤ 9) :
    (digitChar d).isDigit = true := by
  interval_cases d <;> decide

theorem digitsVal_natToCharsAux (fuel : ℕ) :
    ∀ n acc, n ≤ fuel →
      (natToCharsAux fuel n).foldl (fun a c => 10 * a + charVal c) acc =
        acc * 10 ^ (natToCharsAux fuel n).length + n := by
  induction fuel with
  | zero =>
      intro n acc h
      interval_cases n
      simp [natToCharsAux]
  | succ f ih =>
      intro n acc h
      by_cases hn : n = 0
      · subst hn; simp [natToCharsAux]
      · rw [natToCharsAux, if_neg hn, List.foldl_append,
          ih (n / 10) acc (by omega), List.length_append]
        simp only [List.foldl_cons, List.foldl_nil, List.length_cons,
          List.length_nil]
        rw [charVal_digitChar (n % 10) (by omega)]
        have h10 : 10 * (n / 10) + n % 10 = n := by omega
        calc 10 * (acc * 10 ^ (natToCharsAux f (n / 10)).length + n / 10) +
              n % 10
            = acc * 10 ^ (natToCharsAux f (n / 10)).length * 10 +
                (10 * (n / 10) + n % 10) := by ring
          _ = acc * 10 ^ ((natToCharsAux f (n / 10)).length + (0 + 1)) + n := by
              rw [h10, pow_succ]; ring_nf

theorem natToCharsAux_all_digits (fuel : ℕ) :
    ∀ n, n ≤ fuel → (natToCharsAux fuel n).all Char.isDigit = true := by
  induction fuel with
  | zero => intro n h; interval_cases n; simp [natToCharsAux]
  | succ f ih =>
      intro n h
      by_cases hn : n = 0
      · subst hn; simp [natToCharsAux]
      · rw [natToCharsAux, if_neg hn, List.all_append]
        have h1 := ih (n / 10) (by omega)
        have h2 := isDigit_digitChar (n % 10) (by omega)
        simp [h1, h2]

theorem natToCharsAux_length_le (fuel : ℕ) :
    ∀ n k, n ≤ fuel → n < 10 ^ k → (natToCharsAux fuel n).length ≤ k := by
  induction fuel with
  | zero => intro n k h _; interval_cases n; simp [natToCharsAux]
  | succ f ih =>
      intro n k h hk
      by_cases hn : n = 0
      · subst hn; simp [natToCharsAux]
      · rw [natToCharsAux, if_neg hn, List.length_append]
        rcases k with _ | k'
        · omega
        · have hdiv : n / 10 < 10 ^ k' := by
            rw [Nat.div_lt_iff_lt_mul (by omega)]
            calc n < 10 ^ (k' + 1) := hk
              _ = 10 ^ k' * 10 := by rw [pow_succ]
          have := ih (n / 10) k' (by omega) hdiv
          simp only [List.length_cons, List.length_nil]
          omega

theorem digitsVal_charsOfNat (n : ℕ) : digitsVal (charsOfNat n) = n := by
  unfold charsOfNat digitsVal
  by_cases hn : n = 0
  · subst hn; decide
  · rw [if_neg hn, digitsVal_natToCharsAux n n 0 (le_refl n)]
    ring

theorem charsOfNat_all_digits (n : ℕ) :
    (charsOfNat n).all Char.isDigit = true := by
  unfold charsOfNat
  by_cases hn : n = 0
  · subst hn; decide
  · rw [if_neg hn]; exact natToCharsAux_all_digits n n (le_refl n)

theorem charsOfNat_ne_nil (n : ℕ) : charsOfNat n ≠ [] := by
  unfold charsOfNat
  by_cases hn : n = 0
  · subst hn; simp
  · rw [if_neg hn]
    rcases n with _ | m
    · exact absurd rfl hn
    · rw [natToCharsAux, if_neg hn]
      simp

theorem charsOfNat_length_le (n k : ℕ) (hk : 1 ≤ k) (h : n < 10 ^ k) :
    (charsOfNat n).length ≤ k := by
  unfold charsOfNat
  by_cases hn : n = 0
  · subst hn; simpa using hk
  · rw [if_neg hn]; exact natToCharsAux_length_le n n k (le_refl n) h

theorem foldl_replicate_zero (k : ℕ) (l : List Char) :
    (List.replicate k '0' ++ l).foldl (fun a c => 10 * a + charVal c) 0 =
      l.foldl (fun a c => 10 * a + charVal c) 0 := by
  induction k with
  | zero => simp
  | succ j ih =>
      rw [List.replicate_succ, List.cons_append, List.foldl_cons]
      have hz : 10 * 0 + charVal '0' = 0 := by decide
      rw [hz, ih]

theorem pyFloatDigits_padStrike (n : ℕ) :
    pyFloatDigits (padStrike (charsOfNat n)) = some n := by
  unfold pyFloatDigits padStrike
  have hnil : List.replicate (8 - (charsOfNat n).length) '0' ++ charsOfNat n ≠
      [] := by
    simp [charsOfNat_ne_nil n]
  have hdig : (List.replicate (8 - (charsOfNat n).length) '0' ++
      charsOfNat n).all Char.isDigit = true := by
    rw [List.all_append]
    have h1 : (List.replicate (8 - (charsOfNat n).length) '0').all
        Char.isDigit = true := by
      simp [List.all_eq_true]
    simp [h1, charsOfNat_all_digits n]
  rw [if_pos ⟨hnil, hdig⟩]
  unfold digitsVal
  rw [foldl_replicate_zero]
  have := digitsVal_charsOfNat n
  unfold digitsVal at this
  rw [this]

theorem pyRstripL_all_digits (l : List Char)
    (h : l.all Char.isDigit = true) : pyRstripL l = l := by
  unfold pyRstripL
  have hrev : l.reverse.dropWhile (fun c => c = 'L') = l.reverse := by
    rcases hr : l.reverse with _ | ⟨c, t⟩
    · rfl
    · rw [List.dropWhile_cons]
      have hc : c ∈ l := by
        rw [← List.mem_reverse, hr]; exact List.mem_cons_self c t
      have hcd : c.isDigit = true := by
        rw [List.all_eq_true] at h; exact h c hc
      have : ¬(c = 'L') := by
        intro hcl; subst hcl; simp at hcd
      simp [this]
  rw [hrev, List.reverse_reverse]

theorem intToChars_natCast (n : ℕ) : intToChars ((n : ℕ) : ℤ) = charsOfNat n := by
  unfold intToChars
  rw [if_neg (by omega)]
  simp

theorem strikeChars_div_base (n : ℕ) :
    strikeChars ((n : ℚ) / 1000) = padStrike (charsOfNat n) := by
  unfold strikeChars
  have h : Price.encode ((n : ℚ) / 1000) = ((n : ℕ) : ℤ) := by
    have := Price.encode_div_base ((n : ℕ) : ℤ)
    rw [← this]
    norm_num
  rw [h, intToChars_natCast,
    pyRstripL_all_digits (charsOfNat n) (charsOfNat_all_digits n)]

/-! ### Date round-trip and slicing lemmas -/

theorem digitsVal_pair (c1 c2 : Char) :
    digitsVal [c1, c2] = 10 * charVal c1 + charVal c2 := by
  simp [digitsVal]

theorem pad2_digits (a : ℕ) : (pad2 a).all Char.isDigit = true := by
  simp [pad2, isDigit_digitChar (a / 10 % 10) (by omega),
    isDigit_digitChar (a % 10) (by omega)]

theorem digitsVal_pad2 (a : ℕ) (h : a < 100) : digitsVal (pad2 a) = a := by
  rw [pad2, digitsVal_pair, charVal_digitChar (a / 10 % 10) (by omega),
    charVal_digitChar (a % 10) (by omega)]
  omega

theorem daysInMonth_le (y m : ℕ) : daysInMonth y m ≤ 31 := by
  unfold daysInMonth
  split_ifs <;> omega

theorem pd_to_datetime_pad6 (a b c : ℕ) (ha : a < 100) (hb : b < 100)
    (hc : c < 100) (hv : validDate (pivotYY a) b c) :
    pd_to_datetime (pad2 a ++ pad2 b ++ pad2 c) = some ⟨pivotYY a, b, c⟩ := by
  have hdig : ∀ x : ℕ, (digitChar (x % 10)).isDigit = true := fun x =>
    isDigit_digitChar (x % 10) (by omega)
  have hdig10 : ∀ x : ℕ, (digitChar (x / 10 % 10)).isDigit = true := fun x =>
    isDigit_digitChar (x / 10 % 10) (by omega)
  have hv2 : ∀ x : ℕ, x < 100 →
      digitsVal [digitChar (x / 10 % 10), digitChar (x % 10)] = x := by
    intro x hx
    have := digitsVal_pad2 x hx
    rwa [pad2] at this
  simp only [pad2, List.cons_append, List.nil_append, pd_to_datetime]
  rw [if_pos (by simp [hdig, hdig10])]
  simp only [hv2 a ha, hv2 b hb, hv2 c hc]
  rw [if_pos hv]

theorem pivotYY_mod (y : ℕ) (h1 : 1969 ≤ y) (h2 : y ≤ 2068) :
    pivotYY (y % 100) = y := by
  unfold pivotYY
  split_ifs <;> omega

theorem pd_to_datetime_strftime (y m d : ℕ) (hy1 : 1969 ≤ y) (hy2 : y ≤ 2068)
    (hv : validDate y m d) :
    pd_to_datetime (strftime_yymmdd ⟨y, m, d⟩) = some ⟨y, m, d⟩ := by
  have hm : m < 100 := by
    rcases hv with ⟨_, h, _, _⟩; omega
  have hd : d < 100 := by
    rcases hv with ⟨_, _, _, h⟩
    have := daysInMonth_le y m
    omega
  have hy100 : y % 100 < 100 := Nat.mod_lt _ (by omega)
  have hpiv := pivotYY_mod y hy1 hy2
  have := pd_to_datetime_pad6 (y % 100) m d hy100 hm hd (by rwa [hpiv])
  rw [strftime_yymmdd]
  simp only at this ⊢
  rw [this, hpiv]

theorem lastK_append (a b : List Char) : lastK (a ++ b) b.length = b := by
  unfold lastK
  rw [List.length_append,
    show a.length + b.length - b.length = a.length from by omega]
  exact List.drop_left a b

theorem sliceFromEnd_mid (a mid rest : List Char) :
    sliceFromEnd (a ++ (mid ++ rest)) (mid.length + rest.length) rest.length =
      mid := by
  unfold sliceFromEnd
  rw [List.length_append, List.length_append]
  rw [show a.length + (mid.length + rest.length) -
      (mid.length + rest.length) = a.length from by omega]
  rw [show a.length + (mid.length + rest.length) - rest.length -
      a.length = mid.length from by omega]
  rw [List.drop_left a (mid ++ rest)]
  exact List.take_left mid rest

theorem dropLastK_append (a b : List Char) : dropLastK (a ++ b) b.length = a := by
  unfold dropLastK
  rw [List.length_append,
    show a.length + b.length - b.length = a.length from by omega]
  exact List.take_left a b

/-! ### Claims C3, C4, C6 -/

/-- C4: for every decimal value `x = n/1000` representable with at most
three fractional digits, decoding the Price encoding of `x` gives back
exactly `x` (encoding multiplies by the scale factor 1000 and truncates
toward zero, decoding divides by 1000). -/
theorem price_decode_encode (n : ℤ) :
    Price.decode ((Price.encode ((n : ℚ) / 1000) : ℤ) : ℚ) = (n : ℚ) / 1000 := by
  rw [Price.encode_div_base]
  unfold Price.decode Price.BASE
  rfl

/-- Parsing the formatted symbol recovers the components with the
underlying upper-cased (as `parse_option_symbol` always upper-cases it). -/
theorem parse_fmt (u : PyStr) (y m d : ℕ) (cp : PyStr) (n : ℕ)
    (hcp : cp = ['C'] ∨ cp = ['P'])
    (hy1 : 1969 ≤ y) (hy2 : y ≤ 2068) (hv : validDate y m d)
    (hn : n < 100000000) :
    parse_option_symbol (option_symbol_fmt u ⟨y, m, d⟩ cp ((n : ℚ) / 1000)) =
      some (u.map Char.toUpper, ⟨y, m, d⟩, cp, (n : ℚ) / 1000) := by
  have hcpU : cp.map Char.toUpper = cp := by
    rcases hcp with h | h <;> subst h <;> decide
  · have hs8v : strikeChars ((n : ℚ) / 1000) = padStrike (charsOfNat n) :=
      strikeChars_div_base n
    have hs8len : (strikeChars ((n : ℚ) / 1000)).length = 8 := by
      rw [hs8v]
      unfold padStrike
      rw [List.length_append, List.length_replicate]
      have hle : (charsOfNat n).length ≤ 8 :=
        charsOfNat_length_le n 8 (by omega) (by norm_num at hn ⊢; omega)
      omega
    have hd6len : (strftime_yymmdd ⟨y, m, d⟩).length = 6 := by
      simp [strftime_yymmdd, pad2]
    have hcplen : cp.length = 1 := by
      rcases hcp with h | h <;> subst h <;> rfl
    have hshape : option_symbol_fmt u ⟨y, m, d⟩ cp ((n : ℚ) / 1000) =
        u ++ (strftime_yymmdd ⟨y, m, d⟩ ++
          (cp ++ strikeChars ((n : ℚ) / 1000))) := by
      unfold option_symbol_fmt
      rw [hcpU, List.append_assoc, List.append_assoc]
    have e1 : lastK (option_symbol_fmt u ⟨y, m, d⟩ cp ((n : ℚ) / 1000)) 8 =
        strikeChars ((n : ℚ) / 1000) := by
      rw [hshape, ← List.append_assoc, ← List.append_assoc, ← hs8len]
      exact lastK_append _ _
    have e2 : sliceFromEnd
        (option_symbol_fmt u ⟨y, m, d⟩ cp ((n : ℚ) / 1000)) 9 8 = cp := by
      rw [hshape, ← List.append_assoc,
        show (9 : ℕ) = cp.length + (strikeChars ((n : ℚ) / 1000)).length from
          by omega,
        show (8 : ℕ) = (strikeChars ((n : ℚ) / 1000)).length from hs8len.symm]
      exact sliceFromEnd_mid _ _ _
    have e3 : sliceFromEnd
        (option_symbol_fmt u ⟨y, m, d⟩ cp ((n : ℚ) / 1000)) 15 9 =
        strftime_yymmdd ⟨y, m, d⟩ := by
      have h9 : (cp ++ strikeChars ((n : ℚ) / 1000)).length = 9 := by
        rw [List.length_append]; omega
      rw [hshape,
        show (15 : ℕ) = (strftime_yymmdd ⟨y, m, d⟩).length +
          (cp ++ strikeChars ((n : ℚ) / 1000)).length from by omega,
        show (9 : ℕ) = (cp ++ strikeChars ((n : ℚ) / 1000)).length from h9.symm]
      exact sliceFromEnd_mid _ _ _
    have e4 : dropLastK
        (option_symbol_fmt u ⟨y, m, d⟩ cp ((n : ℚ) / 1000)) 15 = u := by
      have h15 : (strftime_yymmdd ⟨y, m, d⟩ ++
          (cp ++ strikeChars ((n : ℚ) / 1000))).length = 15 := by
        rw [List.length_append, List.length_append]; omega
      rw [hshape, show (15 : ℕ) = (strftime_yymmdd ⟨y, m, d⟩ ++
          (cp ++ strikeChars ((n : ℚ) / 1000))).length from h15.symm]
      exact dropLastK_append _ _
    unfold parse_option_symbol parse_option_symbol_raw
    rw [e1, hs8v, pyFloatDigits_padStrike n]
    simp only
    rw [e2, e3, pd_to_datetime_strftime y m d hy1 hy2 hv]
    rw [e4, hcpU]
    have hdec : Price.decode ((n : ℕ) : ℚ) = (n : ℚ) / 1000 := rfl
    simp [hdec]

/-- C3 (amended): the symbol codec round-trips on quadruples whose
underlying is unchanged by upper-casing, whose type letter is `C` or `P`,
whose expiration year lies in the two-digit-year window 1969–2068 with a
valid calendar date, and whose strike is a non-negative multiple of 1/1000
that encodes into at most 8 digits. -/
theorem option_symbol_roundtrip (u : PyStr) (y m d : ℕ) (cp : PyStr) (n : ℕ)
    (hu : ∀ c ∈ u, c.toUpper = c)
    (hcp : cp = ['C'] ∨ cp = ['P'])
    (hy1 : 1969 ≤ y) (hy2 : y ≤ 2068) (hv : validDate y m d)
    (hn : n < 100000000) :
    option_symbol u ⟨y, m, d⟩ cp ((n : ℚ) / 1000) =
        some (option_symbol_fmt u ⟨y, m, d⟩ cp ((n : ℚ) / 1000)) ∧
      parse_option_symbol (option_symbol_fmt u ⟨y, m, d⟩ cp ((n : ℚ) / 1000)) =
        some (u, ⟨y, m, d⟩, cp, (n : ℚ) / 1000) := by
  have hcpU : cp.map Char.toUpper = cp := by
    rcases hcp with h | h <;> subst h <;> decide
  have hmapu : u.map Char.toUpper = u := by
    calc u.map Char.toUpper = u.map id := List.map_congr_left hu
      _ = u := List.map_id u
  constructor
  · unfold option_symbol
    rw [hcpU, if_pos hcp]
  · rw [parse_fmt u y m d cp n hcp hy1 hy2 hv hn, hmapu]

/-- C3 counterexample: the decoder upper-cases the underlying, so a
lower-case underlying is not returned exactly. -/
theorem option_symbol_roundtrip_cex :
    (option_symbol ("a".toList) ⟨2016, 6, 17⟩ ("C".toList)
        (((1000 : ℕ) : ℚ) / 1000)).bind parse_option_symbol =
      some ("A".toList, ⟨2016, 6, 17⟩, "C".toList,
        ((1000 : ℕ) : ℚ) / 1000) ∧
    ("A".toList : PyStr) ≠ "a".toList := by
  constructor
  · have h2 : option_symbol ("a".toList) ⟨2016, 6, 17⟩ ("C".toList)
        (((1000 : ℕ) : ℚ) / 1000) =
        some (option_symbol_fmt ("a".toList) ⟨2016, 6, 17⟩ ("C".toList)
          (((1000 : ℕ) : ℚ) / 1000)) := by
      unfold option_symbol
      rw [if_pos (Or.inl (by decide))]
    rw [h2, Option.some_bind,
      parse_fmt ("a".toList) 2016 6 17 ("C".toList) 1000 (Or.inl rfl)
        (by omega) (by omega) (by decide) (by omega)]
    rfl
  · decide

/-- C3 witness: the round-trip theorem applied at a concrete valid input. -/
theorem option_symbol_roundtrip_witness :
    option_symbol ("F".toList) ⟨2016, 6, 17⟩ ("C".toList)
        (((150000 : ℕ) : ℚ) / 1000) =
      some (option_symbol_fmt ("F".toList) ⟨2016, 6, 17⟩ ("C".toList)
        (((150000 : ℕ) : ℚ) / 1000)) ∧
    parse_option_symbol (option_symbol_fmt ("F".toList) ⟨2016, 6, 17⟩
        ("C".toList) (((150000 : ℕ) : ℚ) / 1000)) =
      some ("F".toList, ⟨2016, 6, 17⟩, "C".toList,
        ((150000 : ℕ) : ℚ) / 1000) :=
  option_symbol_roundtrip ("F".toList) 2016 6 17 ("C".toList) 150000
    (by decide) (Or.inl rfl) (by omega) (by omega) (by decide) (by omega)

/-- C6 (amended): decoding performs no length validation and has no
dedicated malformed-symbol error; it fails exactly when the strike segment
(last 8 characters) or the date segment (15th- through 10th-from-end
characters) fails to parse. -/
theorem parse_option_symbol_failure_iff (symbol : List Char) :
    parse_option_symbol symbol = none ↔
      (pyFloatDigits (lastK symbol 8) = none ∨
        pd_to_datetime (sliceFromEnd symbol 15 9) = none) := by
  unfold parse_option_symbol parse_option_symbol_raw
  rcases h1 : pyFloatDigits (lastK symbol 8) with _ | v
  · simp
  · rcases h2 : pd_to_datetime (sliceFromEnd symbol 15 9) with _ | e
    · simp
    · simp

/-- C6 counterexample: a 13-character string decodes successfully, so
decoding does not fail on every string shorter than 15 characters. -/
theorem parse_short_symbol_cex :
    ("2016C00001000".toList).length < 15 ∧
    parse_option_symbol ("2016C00001000".toList) =
      some ([], ⟨2016, 1, 1⟩, "C".toList, Price.decode ((1000 : ℕ) : ℚ)) := by
  exact ⟨by decide, rfl⟩

/-! ### Claim C8: option_symbols -/

/-- C8 (amended): with at least one flag set, `option_symbols` succeeds and
enumerates the product with the strike varying fastest, then the type
letter (`C` before `P`), then the expiration; with both flags unset it
raises. -/
theorem option_symbols_spec (u : PyStr) (exps : List Date) (strikes : List ℚ)
    (calls puts : Bool) :
    (calls = false ∧ puts = false →
      option_symbols u exps strikes calls puts = none) ∧
    (calls = true ∨ puts = true →
      option_symbols u exps strikes calls puts =
        some (exps.flatMap fun e =>
          ((if calls then ['C'] else []) ++
            (if puts then ['P'] else [])).flatMap fun c =>
              strikes.map fun s => option_symbol_fmt u e [c] s)) := by
  constructor
  · rintro ⟨h1, h2⟩
    subst h1; subst h2
    rfl
  · intro h
    unfold option_symbols
    rw [if_neg (by rcases h with h | h <;> subst h <;> simp)]
    unfold itertoolsProd4
    simp only [List.flatMap_cons, List.flatMap_nil, List.append_nil,
      List.map_append, List.map_flatMap, List.map_map]
    rfl

/-- C8 witness: both branches of the specification at concrete inputs. -/
theorem option_symbols_spec_witness :
    option_symbols ("F".toList) [⟨2016, 6, 17⟩] [1] false false = none ∧
    option_symbols ("F".toList) [⟨2016, 6, 17⟩] [1] true true =
      some ([(⟨2016, 6, 17⟩ : Date)].flatMap fun e =>
        ((if true then ['C'] else []) ++
          (if true then ['P'] else [])).flatMap fun c =>
            [(1 : ℚ)].map fun s => option_symbol_fmt ("F".toList) e [c] s) :=
  ⟨(option_symbols_spec ("F".toList) [⟨2016, 6, 17⟩] [1] false false).1
      ⟨rfl, rfl⟩,
    (option_symbols_spec ("F".toList) [⟨2016, 6, 17⟩] [1] true true).2
      (Or.inl rfl)⟩

/-- C8 counterexample: with one expiration, strikes `[100, 200]` and both
type letters, the produced order is C-100, C-200, P-100, P-200 (strike
fastest), not the claimed C-100, P-100, C-200, P-200 (type letter
fastest). -/
theorem option_symbols_order_cex :
    option_symbols ("F".toList) [⟨2016, 6, 17⟩]
        [((100000 : ℕ) : ℚ) / 1000, ((200000 : ℕ) : ℚ) / 1000] true true =
      some [option_symbol_fmt ("F".toList) ⟨2016, 6, 17⟩ ['C']
              (((100000 : ℕ) : ℚ) / 1000),
            option_symbol_fmt ("F".toList) ⟨2016, 6, 17⟩ ['C']
              (((200000 : ℕ) : ℚ) / 1000),
            option_symbol_fmt ("F".toList) ⟨2016, 6, 17⟩ ['P']
              (((100000 : ℕ) : ℚ) / 1000),
            option_symbol_fmt ("F".toList) ⟨2016, 6, 17⟩ ['P']
              (((200000 : ℕ) : ℚ) / 1000)] ∧
      [option_symbol_fmt ("F".toList) ⟨2016, 6, 17⟩ ['C']
          (((100000 : ℕ) : ℚ) / 1000),
        option_symbol_fmt ("F".toList) ⟨2016, 6, 17⟩ ['C']
          (((200000 : ℕ) : ℚ) / 1000),
        option_symbol_fmt ("F".toList) ⟨2016, 6, 17⟩ ['P']
          (((100000 : ℕ) : ℚ) / 1000),
        option_symbol_fmt ("F".toList) ⟨2016, 6, 17⟩ ['P']
          (((200000 : ℕ) : ℚ) / 1000)] ≠
      [option_symbol_fmt ("F".toList) ⟨2016, 6, 17⟩ ['C']
          (((100000 : ℕ) : ℚ) / 1000),
        option_symbol_fmt ("F".toList) ⟨2016, 6, 17⟩ ['P']
          (((100000 : ℕ) : ℚ) / 1000),
        option_symbol_fmt ("F".toList) ⟨2016, 6, 17⟩ ['C']
          (((200000 : ℕ) : ℚ) / 1000),
        option_symbol_fmt ("F".toList) ⟨2016, 6, 17⟩ ['P']
          (((200000 : ℕ) : ℚ) / 1000)] := by
  constructor
  · rw [(option_symbols_spec ("F".toList) [⟨2016, 6, 17⟩]
      [((100000 : ℕ) : ℚ) / 1000, ((200000 : ℕ) : ℚ) / 1000] true true).2
      (Or.inl rfl)]
    rfl
  · have h1 := strikeChars_div_base 100000
    have h2 := strikeChars_div_base 200000
    unfold option_symbol_fmt
    rw [h1, h2]
    decide

theorem tradeking_cost_eq (n : ℕ) : tradeking_cost n = 4950 + 650 * n := by
  unfold tradeking_cost
  have h1 : Price.encode (4.95 : ℚ) = 4950 := by
    have h := Price.encode_div_base 4950
    rw [show ((4950 : ℤ) : ℚ) / 1000 = (4.95 : ℚ) from by norm_num] at h
    exact h
  have h2 : Price.encode (0.65 : ℚ) = 650 := by
    have h := Price.encode_div_base 650
    rw [show ((650 : ℤ) : ℚ) / 1000 = (0.65 : ℚ) from by norm_num] at h
    exact h
  rw [h1, h2]

/-! ### Claims C7, C9, C10, C1 -/

/-- C7: a cached read with non-negative TTL returns the cached value
exactly when the entry exists and (TTL = 0 or age ≤ TTL); otherwise (stale
entry, or entry explicitly deleted) it recomputes, stores the fresh value
and refreshes the timestamp to `now`. -/
theorem cached_property_ttl (α : Type) (ttl now last_update : ℤ) (v : α)
    (fget : Unit → α) (httl : 0 ≤ ttl) :
    ((ttl = 0 ∨ now - last_update ≤ ttl) →
      cachedRead ttl now (some (v, last_update)) fget =
        (v, some (v, last_update))) ∧
    (ttl ≠ 0 → ttl < now - last_update →
      cachedRead ttl now (some (v, last_update)) fget =
        (fget (), some (fget (), now))) ∧
    cachedRead ttl now (none : Option (α × ℤ)) fget =
      (fget (), some (fget (), now)) := by
  refine ⟨?_, ?_, ?_⟩
  · intro h
    simp only [cachedRead]
    rw [if_neg (by omega)]
  · intro h1 h2
    simp only [cachedRead]
    rw [if_pos (by omega)]
  · rfl

/-- C7 witness: a fresh read within TTL, a stale read past TTL, and a read
after explicit invalidation, at concrete values. -/
theorem cached_property_ttl_witness :
    cachedRead 300 100 (some ((7 : ℤ), 0)) (fun _ => (9 : ℤ)) =
      (7, some (7, 0)) ∧
    cachedRead 300 400 (some ((7 : ℤ), 0)) (fun _ => (9 : ℤ)) =
      (9, some (9, 400)) ∧
    cachedRead 300 50 (none : Option (ℤ × ℤ)) (fun _ => (9 : ℤ)) =
      (9, some (9, 50)) :=
  ⟨(cached_property_ttl ℤ 300 100 0 7 (fun _ => 9) (by omega)).1
      (Or.inr (by omega)),
    (cached_property_ttl ℤ 300 400 0 7 (fun _ => 9) (by omega)).2.1
      (by omega) (by omega),
    (cached_property_ttl ℤ 300 50 0 7 (fun _ => 9) (by omega)).2.2⟩

/-- C9: `reset_start_stop` clears only the cached payoff curve and updates
the domain bounds; the cost and premium caches and all identity fields
(underlying, expiration, type, strike, direction, tick size) are
unchanged. -/
theorem reset_start_stop_frame (l : Leg) (a b : ℤ) :
    (l.reset_start_stop a b).cachePayoffs = none ∧
    (l.reset_start_stop a b).start = a ∧
    (l.reset_start_stop a b).stop = b ∧
    (l.reset_start_stop a b).cacheCost = l.cacheCost ∧
    (l.reset_start_stop a b).cachePremium = l.cachePremium ∧
    (l.reset_start_stop a b).underlying = l.underlying ∧
    (l.reset_start_stop a b).expiration = l.expiration ∧
    (l.reset_start_stop a b).call_put = l.call_put ∧
    (l.reset_start_stop a b).strike = l.strike ∧
    (l.reset_start_stop a b).long_short = l.long_short ∧
    (l.reset_start_stop a b).tick_size = l.tick_size :=
  ⟨rfl, rfl, rfl, rfl, rfl, rfl, rfl, rfl, rfl, rfl, rfl⟩

/-- C10: `MultiLeg.payoff` is the sum over the member legs of the leg
payoff at that price (the intrinsic value, negated for a short leg), and it
is `0` for a `MultiLeg` with no legs. -/
theorem multileg_payoff_sum (m : MultiLeg) (price : ℤ) :
    MultiLeg.payoff m price =
      (m.legs.map (fun l =>
        (if l.long_short = 'S' then -1 else 1) * l.payoff_func price)).sum ∧
    (m.legs = [] → MultiLeg.payoff m price = 0) := by
  constructor
  · unfold MultiLeg.payoff Leg.payoff
    congr 1
    apply List.map_congr_left
    intro l _
    by_cases h : l.long_short = 'S' <;> simp [h]
  · intro h
    simp [MultiLeg.payoff, h]

/-- C10 witness: the empty-legs case evaluated concretely. -/
theorem multileg_payoff_sum_witness :
    MultiLeg.payoff { legs := [], cost_func := tradeking_cost } 0 = 0 :=
  (multileg_payoff_sum { legs := [], cost_func := tradeking_cost } 0).2 rfl

/-- C1: `add_leg` appends to the leg list and leaves every cache slot
untouched; concretely, reading `cost` (caching `tradeking_cost 1 = 5600`),
then adding a second leg, then reading `cost` again within the TTL still
returns the stale 5600 even though the cost of the enlarged collection is
`tradeking_cost 2 = 6250`. -/
theorem add_leg_does_not_invalidate :
    (∀ (m : MultiLeg) (l : Leg),
      (m.add_leg l).cachePayoffs = m.cachePayoffs ∧
      (m.add_leg l).cacheCost = m.cacheCost ∧
      (m.add_leg l).cachePremium = m.cachePremium ∧
      (m.add_leg l).legs = m.legs ++ [l]) ∧
    ((((MultiLeg.costRead { legs := [legF], cost_func := tradeking_cost }
          0).2.add_leg legF).costRead 0).1 = 5600 ∧
      tradeking_cost
        (((MultiLeg.costRead { legs := [legF], cost_func := tradeking_cost }
          0).2.add_leg legF).legs.length) = 6250) := by
  constructor
  · intro m l
    exact ⟨rfl, rfl, rfl, rfl⟩
  · have h1 : tradeking_cost 1 = 5600 := by rw [tradeking_cost_eq]; norm_num
    have h2 : tradeking_cost 2 = 6250 := by rw [tradeking_cost_eq]; norm_num
    constructor
    · show (cachedRead 300 0
          (some (tradeking_cost 1, 0))
          (fun _ => tradeking_cost 2)).1 = 5600
      rw [show cachedRead 300 0 (some (tradeking_cost 1, 0))
            (fun _ => tradeking_cost 2) =
          (tradeking_cost 1, some (tradeking_cost 1, 0)) from by
        simp only [cachedRead]
        rw [if_neg (by omega)]]
      exact h1
    · exact h2

/-! ### Claim C5: MultiLeg.payoffs point-wise sum -/

theorem lookup_map_key (f : ℤ → ℤ) (ks : List ℤ) (k : ℤ) (h : k ∈ ks) :
    (ks.map (fun x => (x, f x))).lookup k = some (f k) := by
  induction ks with
  | nil => cases h
  | cons a t ih =>
      rcases List.mem_cons.mp h with h1 | h1
      · subst h1
        simp [List.lookup]
      · by_cases hk : k = a
        · subst hk
          simp [List.lookup]
        · simp only [List.map_cons, List.lookup,
            beq_eq_false_iff_ne.mpr hk]
          exact ih h1

theorem lookup0_map_key (f : ℤ → ℤ) (ks : List ℤ) (k : ℤ) (h : k ∈ ks) :
    lookup0 (ks.map (fun x => (x, f x))) k = f k := by
  unfold lookup0
  rw [lookup_map_key f ks k h]
  rfl

theorem seriesKeys_map_key (f : ℤ → ℤ) (ks : List ℤ) :
    seriesKeys (ks.map (fun x => (x, f x))) = ks := by
  unfold seriesKeys
  rw [List.map_map]
  calc List.map (Prod.fst ∘ fun x => (x, f x)) ks
      = List.map id ks := List.map_congr_left (fun x _ => rfl)
    _ = ks := List.map_id ks

theorem lookup0_seriesAdd (a b : List (ℤ × ℤ)) (k : ℤ)
    (h : k ∈ seriesKeys a ∨ k ∈ seriesKeys b) :
    lookup0 (seriesAdd a b) k = lookup0 a k + lookup0 b k := by
  have hk : k ∈ ((seriesKeys a ++ seriesKeys b).dedup).insertionSort
      (fun x y => x ≤ y) := by
    rw [(List.perm_insertionSort (fun x y => x ≤ y) _).mem_iff,
      List.mem_dedup, List.mem_append]
    exact h
  unfold seriesAdd
  exact lookup0_map_key (fun x => lookup0 a x + lookup0 b x) _ k hk

theorem lookup0_foldl_seriesAdd (p : ℤ) (ss : List (List (ℤ × ℤ))) :
    ∀ acc : List (ℤ × ℤ), (∀ s ∈ ss, p ∈ seriesKeys s) →
      lookup0 (ss.foldl seriesAdd acc) p =
        lookup0 acc p + (ss.map (fun s => lookup0 s p)).sum := by
  induction ss with
  | nil => intro acc _; simp
  | cons s t ih =>
      intro acc h
      simp only [List.foldl_cons, List.map_cons, List.sum_cons]
      rw [ih (seriesAdd acc s) (fun x hx => h x (List.mem_cons_of_mem s hx))]
      rw [lookup0_seriesAdd acc s p (Or.inr (h s (List.mem_cons_self s t)))]
      ring

theorem foldl_series_pair (now : ℤ) (legs : List Leg) :
    ∀ (s0 : List (ℤ × ℤ)) (ls0 : List Leg),
      (legs.foldl
        (fun acc l =>
          (seriesAdd acc.1 (l.payoffsRead now).1,
            acc.2 ++ [(l.payoffsRead now).2]))
        (s0, ls0)).1 =
      (legs.map (fun l => (l.payoffsRead now).1)).foldl seriesAdd s0 := by
  induction legs with
  | nil => intro s0 ls0; rfl
  | cons l t ih =>
      intro s0 ls0
      simp only [List.foldl_cons, List.map_cons]
      exact ih _ _

theorem reset_payoffsRead_fst (l : Leg) (now s e : ℤ) :
    ((l.reset_start_stop s e).payoffsRead now).1 =
      (pyRange s e l.tick_size).map (fun q => (q, l.payoff q)) := by
  show (l.reset_start_stop s e).payoffsCompute = _
  unfold Leg.payoffsCompute Leg.reset_start_stop
  by_cases h : l.long_short = 'S'
  · rw [if_pos h, List.map_map]
    apply List.map_congr_left
    intro q _
    simp [Function.comp, Leg.payoff, Leg.payoff_func, h]
  · rw [if_neg h]
    apply List.map_congr_left
    intro q _
    simp [Leg.payoff, Leg.payoff_func, h]

theorem seriesKeys_reset_read (l : Leg) (now s e : ℤ) :
    seriesKeys (((l.reset_start_stop s e).payoffsRead now).1) =
      pyRange s e l.tick_size := by
  rw [reset_payoffsRead_fst]
  exact seriesKeys_map_key _ _

theorem lookup0_reset_read (l : Leg) (now s e q : ℤ)
    (hq : q ∈ pyRange s e l.tick_size) :
    lookup0 (((l.reset_start_stop s e).payoffsRead now).1) q = l.payoff q := by
  rw [reset_payoffsRead_fst]
  exact lookup0_map_key _ _ q hq

/-- C5: for a `MultiLeg` with an empty payoffs cache whose member legs all
share tick size `τ`, `payoffs()` succeeds, and at every tick `p` of the
union domain `range(min start, max stop, τ)` the aggregated curve equals
the sum over the legs of that leg's (sign-adjusted) intrinsic payoff at
`p` — extrapolated from the leg's payoff function, not zero, where `p`
lies outside the leg's original range. -/
theorem multileg_payoffs_pointwise (m : MultiLeg) (now τ p smin smax : ℤ)
    (hmin : (m.legs.map Leg.start).minimum? = some smin)
    (hmax : (m.legs.map Leg.stop).maximum? = some smax)
    (htick : ∀ l ∈ m.legs, l.tick_size = τ)
    (hcache : m.cachePayoffs = none)
    (hp : p ∈ pyRange smin smax τ) :
    ∃ series m2, m.payoffsRead now = some (series, m2) ∧
      lookup0 series p = (m.legs.map (fun l => l.payoff p)).sum := by
  have hcomp : m.payoffsCompute now =
      some ((m.legs.map (fun l => l.reset_start_stop smin smax)).foldl
        (fun acc l =>
          (seriesAdd acc.1 (l.payoffsRead now).1,
            acc.2 ++ [(l.payoffsRead now).2]))
        (([] : List (ℤ × ℤ)), ([] : List Leg))) := by
    unfold MultiLeg.payoffsCompute
    rw [hmin, hmax]
  set F := (m.legs.map (fun l => l.reset_start_stop smin smax)).foldl
      (fun acc l =>
        (seriesAdd acc.1 (l.payoffsRead now).1,
          acc.2 ++ [(l.payoffsRead now).2]))
      (([] : List (ℤ × ℤ)), ([] : List Leg)) with hF
  refine ⟨F.1, { m with legs := F.2, cachePayoffs := some (F.1, now) },
    ?_, ?_⟩
  · unfold MultiLeg.payoffsRead
    rw [hcache, hcomp]
  · rw [hF, foldl_series_pair now _ [] []]
    rw [List.map_map]
    rw [lookup0_foldl_seriesAdd p _ [] ?side]
    case side =>
      intro s hs
      rcases List.mem_map.mp hs with ⟨l, hl, hgl⟩
      rw [← hgl]
      show p ∈ seriesKeys (((l.reset_start_stop smin smax).payoffsRead now).1)
      rw [seriesKeys_reset_read, htick l hl]
      exact hp
    rw [show lookup0 [] p = 0 from rfl, zero_add, List.map_map]
    apply congrArg
    apply List.map_congr_left
    intro l hl
    show lookup0 (((l.reset_start_stop smin smax).payoffsRead now).1) p =
      l.payoff p
    apply lookup0_reset_read
    rw [htick l hl]
    exact hp

/-- C5 witness: the point-wise-sum theorem applied to a concrete two-leg
MultiLeg at tick 6 of the union domain `range(2, 8, 1)`. -/
theorem multileg_payoffs_pointwise_witness :
    ∃ series m2,
      MultiLeg.payoffsRead
        { legs := [legG, legH], cost_func := tradeking_cost } 0 =
        some (series, m2) ∧
      lookup0 series 6 = ([legG, legH].map (fun l => l.payoff 6)).sum :=
  multileg_payoffs_pointwise
    { legs := [legG, legH], cost_func := tradeking_cost }
    0 1 6 2 8 rfl rfl
    (by intro l hl; fin_cases hl <;> rfl) rfl (by decide)

/-! ### Claim C2: OptionQuery -/

/-- C2 (amended): when every expression splits into exactly three
whitespace-separated tokens (and retained `xdate` values parse),
construction succeeds and retains exactly the well-formed triples, in
input order, with unknown fields and operators silently dropped; an
expression with any other token count makes construction raise. -/
theorem optionquery_drops_malformed (query : List PyStr)
    (h : ∀ part ∈ query, xdateOK part = true) :
    OptionQuery_init query = some (keptTriples query) := by
  induction query with
  | nil => rfl
  | cons part rest ih =>
      have hpart := h part (List.mem_cons_self _ _)
      have hrest := ih (fun x hx => h x (List.mem_cons_of_mem _ hx))
      unfold xdateOK at hpart
      unfold OptionQuery_init keptTriples
      rcases hk : OQ_keepPart part with _ | ⟨_ | t⟩
      · rw [hk] at hpart
        simp at hpart
      · exact hrest
      · rw [hrest]
        rfl

/-- C2 witness: the specification's own example, with the unknown field
`foobar` dropped. -/
theorem optionquery_drops_malformed_witness :
    OptionQuery_init ["strikeprice > 100".toList, "foobar > 1".toList,
      "xyear = 2016".toList] =
      some (keptTriples ["strikeprice > 100".toList, "foobar > 1".toList,
        "xyear = 2016".toList]) :=
  optionquery_drops_malformed
    ["strikeprice > 100".toList, "foobar > 1".toList, "xyear = 2016".toList]
    (by decide)

/-- C2 counterexample: a two-token expression makes `OptionQuery`
construction raise a `ValueError` (tuple unpacking), so construction is
not total on malformed input. -/
theorem optionquery_raises_cex :
    OptionQuery_init ["strikeprice >".toList] = none := by decide
